import Mathlib

/-!
Verification of the week-signature stability classifier of munro-access.

Shallow embedding conventions:
* Calendar dates are natural numbers counting days from an epoch Monday, so
  `d % 7` is the weekday index (0 = Monday, matching Python `date.weekday()`)
  and the Monday-aligned calendar week containing `d` is `d / 7`.  ISO week
  keys `"YYYY-Www"` name these Monday-aligned blocks bijectively, so a week
  key is represented by its block index where only identity matters, and by
  an explicit `(year, weekNumber)` pair where the contiguity test inspects
  the numeric encoding `year*100 + week`.
* The per-`(route, week)` accumulation of `analyze_rigorous_stability` /
  `analyze_rail_excluding_holidays` is a left fold over the trip rows;
  Python `set` becomes `Finset`, the overwritten `weekday_pattern` field
  becomes `Option (List Nat)`.
* Python float percentage comparisons (`(a/b)*100 >= t`, `sum/len <= 1.5`)
  are modelled by exact integer cross-multiplication; for the magnitudes
  that occur (numerators and denominators are week counts) the float and
  rational comparisons agree.  Spec-side definitions state the same
  thresholds over `ℚ`.
* The unbounded `while current_date <= date_end` loop is embedded with
  explicit fuel `date_end + 1 - current_date`; each iteration advances the
  cursor by at least one day, so this fuel is sufficient (proved below).
-/

/-- One step of the expansion cursor: `current_date += timedelta(days=7 - current_date.weekday())`,
i.e. advance to the Monday of the following week. -/
def stepDate (d : Nat) : Nat := d + (7 - d % 7)

/-- Fuel-indexed body of the `while current_date <= date_end` emission loop of
`analyze_rigorous_stability` (no exclusion set): emit the week key of the
cursor, then advance to next Monday. -/
def expandAux : Nat → Nat → Nat → List Nat
  | 0, _, _ => []
  | fuel + 1, cur, fin =>
    if cur ≤ fin then cur / 7 :: expandAux fuel (stepDate cur) fin else []

/-- Week keys emitted for a trip validity interval `[s, e]` (rigorous-stability
variant, no exclusions). -/
def expandWeeks (s e : Nat) : List Nat := expandAux (e + 1 - s) s e

/-- Fuel-indexed body of the emission loop of `analyze_rail_excluding_holidays`:
excluded week keys are skipped (`continue`) but the cursor still advances. -/
def expandExclAux (excl : List Nat) : Nat → Nat → Nat → List Nat
  | 0, _, _ => []
  | fuel + 1, cur, fin =>
    if cur ≤ fin then
      if cur / 7 ∈ excl then expandExclAux excl fuel (stepDate cur) fin
      else cur / 7 :: expandExclAux excl fuel (stepDate cur) fin
    else []

/-- Week keys emitted for a trip validity interval `[s, e]` with an exclusion
set of week keys. -/
def expandWeeksExcl (excl : List Nat) (s e : Nat) : List Nat :=
  expandExclAux excl (e + 1 - s) s e

/-- A trip row after the `trips.merge(calendar)` join: owning route, service
identifier, weekday flags tuple, per-trip departure count, and validity
interval (well-formed dates; malformed rows are skipped by the source and
never reach the fold). -/
structure Trip where
  route : Nat
  service : Nat
  pattern : List Nat
  dep : Nat
  startD : Nat
  endD : Nat
deriving DecidableEq

/-- The per-`(route, week)` accumulator dict entry:
`{'service_ids': set(), 'weekday_pattern': None, 'total_departures': 0}`. -/
structure WeekRecord where
  service_ids : Finset Nat
  weekday_pattern : Option (List Nat)
  total_departures : Nat
deriving DecidableEq

/-- Initial (lazily created) record. -/
def emptyRecord : WeekRecord := ⟨∅, none, 0⟩

/-- Effect of one trip on a `(route, week)` record it touches:
`service_ids.add(service_id)`, overwrite `weekday_pattern`, add departures. -/
def updTrip (t : Trip) (r : WeekRecord) : WeekRecord :=
  ⟨insert t.service r.service_ids, some t.pattern, r.total_departures + t.dep⟩

/-- Does trip `t` update the record of `(rid, wk)`?  It does exactly when the
trip belongs to the route and the emission loop (under exclusions) emits
week `wk` for it. -/
def touches (excl : List Nat) (rid wk : Nat) (t : Trip) : Prop :=
  t.route = rid ∧ wk ∈ expandWeeksExcl excl t.startD t.endD

instance (excl : List Nat) (rid wk : Nat) (t : Trip) : Decidable (touches excl rid wk t) :=
  inferInstanceAs (Decidable (_ ∧ _))

/-- The `(rid, wk)` record after folding the whole trip table in row order. -/
def recordAt (excl : List Nat) (ts : List Trip) (rid wk : Nat) : WeekRecord :=
  ts.foldl (fun r t => if touches excl rid wk t then updTrip t r else r) emptyRecord

/-- Signature of a `(route, week)`: `(weekday_pattern, frozenset(service_ids))`. -/
def sigAt (excl : List Nat) (ts : List Trip) (rid wk : Nat) :
    Option (List Nat) × Finset Nat :=
  ((recordAt excl ts rid wk).weekday_pattern, (recordAt excl ts rid wk).service_ids)

/-- First-occurrence deduplication, mirroring Python dict-key insertion order. -/
def insertionDedup {α : Type} [DecidableEq α] (l : List α) : List α :=
  l.foldl (fun acc a => if a ∈ acc then acc else acc ++ [a]) []

/-- The keys of `route_weekly_data[rid]['weeks']`: every week key emitted by a
trip of the route, in first-touch order. -/
def observedWeeks (excl : List Nat) (ts : List Trip) (rid : Nat) : List Nat :=
  insertionDedup ((ts.filter (fun t => decide (t.route = rid))).flatMap
    (fun t => expandWeeksExcl excl t.startD t.endD))

/-- The route's `week_signatures` association: each observed week with its
signature. -/
def routeWeekSigs (excl : List Nat) (ts : List Trip) (rid : Nat) :
    List (Nat × (Option (List Nat) × Finset Nat)) :=
  (observedWeeks excl ts rid).map (fun w => (w, sigAt excl ts rid w))

/-- Numeric encoding of an ISO `(year, week)` key used by `is_contiguous`:
`year * 100 + week_num`. -/
def weekNum (p : Nat × Nat) : Nat := p.1 * 100 + p.2

/-- Stable ascending insertion into a sorted `List Nat` (used to model
Python's `sorted` on the parsed week numbers). -/
def insNat (a : Nat) : List Nat → List Nat
  | [] => [a]
  | b :: l => if a ≤ b then a :: b :: l else b :: insNat a l

/-- Ascending sort of the parsed week numbers (same output as Python's
stable `sorted`). -/
def sortNats (l : List Nat) : List Nat := l.foldr insNat []

/-- Consecutive differences of the sorted week numbers with the source's
year-boundary adjustment: a difference of 49 or 50 is replaced by 1, every
other difference is kept as-is (the source's `diff <= 2` branch also
appends `diff` unchanged). -/
def adjGaps : List Nat → List Nat
  | a :: b :: rest => (if b - a = 49 ∨ b - a = 50 then 1 else b - a) :: adjGaps (b :: rest)
  | _ => []

/-- The source's `is_contiguous`: clusters of size ≤ 1 are contiguous;
otherwise parse `year*100 + week`, sort, take adjusted gaps, and require the
average gap to be at most 1.5.  `sum/len <= 1.5` (float) is modelled exactly
as `2 * sum ≤ 3 * len`. -/
def is_contiguous (ws : List (Nat × Nat)) : Bool :=
  if ws.length ≤ 1 then true
  else
    let nums := sortNats (ws.map weekNum)
    if nums.isEmpty then false
    else
      let gaps := adjGaps nums
      if gaps.isEmpty then true
      else decide (2 * gaps.sum ≤ 3 * gaps.length)

/-- Consecutive differences with a parameterized wraparound set: any
difference in `wrap` is replaced by the adjusted gap 1. -/
def specGapsWith (wrap : List Nat) : List Nat → List Nat
  | a :: b :: rest => (if b - a ∈ wrap then 1 else b - a) :: specGapsWith wrap (b :: rest)
  | _ => []

/-- Modelled from the spec (§4.3 Cluster Engine), parameterized by the set of
differences treated as a year-boundary wraparound: C2 reads the code's test
with wrap set `{49, 50, 51}`; the average adjusted gap is compared with 1.5
over `ℚ`. -/
def specContiguousWith (wrap : List Nat) (ws : List (Nat × Nat)) : Bool :=
  if ws.length ≤ 1 then true
  else
    let nums := sortNats (ws.map weekNum)
    let gaps := specGapsWith wrap nums
    if gaps.isEmpty then true
    else decide ((gaps.sum : ℚ) / (gaps.length : ℚ) ≤ 3 / 2)

/-- The five fine stability categories of `analyze_rigorous_stability`. -/
inductive FineCat
  | fully_stable | timetable_changeover | holiday_exceptions
  | multiple_stable_periods | chaotic
deriving DecidableEq

/-- The four coarse buckets of `analyze_rail_excluding_holidays`. -/
inductive CoarseCat
  | fully_stable | mostly_stable | some_variation | high_variation
deriving DecidableEq

/-- `signature_to_weeks` grouping: signatures in first-occurrence order, each
with the week keys carrying it, in iteration order. -/
def clustersOf {K S : Type} [DecidableEq K] [DecidableEq S]
    (weeks : List (K × S)) : List (S × List K) :=
  (insertionDedup (weeks.map Prod.snd)).map
    (fun s => (s, (weeks.filter (fun p => decide (p.2 = s))).map Prod.fst))

/-- Stable insertion into a list sorted by descending week-list length. -/
def insClus {K S : Type} (a : S × List K) : List (S × List K) → List (S × List K)
  | [] => [a]
  | b :: l => if b.2.length ≤ a.2.length then a :: b :: l else b :: insClus a l

/-- `sorted(clusters, key=len, reverse=True)`: stable sort by descending
cluster size. -/
def sortClusters {K S : Type} (cs : List (S × List K)) : List (S × List K) :=
  cs.foldr insClus []

/-- The ordered decision policy of `analyze_rigorous_stability` applied to the
size-sorted cluster list (`total` is the route's observed week count).
Float percentages `(size/total)*100 >= t` are modelled exactly as
`100 * size ≥ t * total`. -/
def classifySorted {S : Type} (cs : List (S × List (Nat × Nat)))
    (total : Nat) : FineCat :=
  match cs with
  | [] => FineCat.chaotic
  | [_] => FineCat.fully_stable
  | c0 :: c1 :: rest =>
    if rest.length = 0 ∧ is_contiguous c0.2 ∧ is_contiguous c1.2 then
      FineCat.timetable_changeover
    else if 100 * c0.2.length ≥ 85 * total ∧ rest.length + 2 ≤ 5 then
      FineCat.holiday_exceptions
    else if rest.length + 2 ≤ 5 ∧ 100 * (c0.2.length + c1.2.length) ≥ 75 * total then
      FineCat.multiple_stable_periods
    else FineCat.chaotic

/-- Fine classification of one route from its `(week key, signature)` map. -/
def classifyFine {S : Type} [DecidableEq S]
    (weeks : List ((Nat × Nat) × S)) : FineCat :=
  classifySorted (sortClusters (clustersOf weeks)) weeks.length

/-- The per-route fine pipeline including the `len(weeks) < 3: continue`
filter: routes with fewer than 3 observed weeks are not classified. -/
def fineRouteCategory {S : Type} [DecidableEq S]
    (weeks : List ((Nat × Nat) × S)) : Option FineCat :=
  if weeks.length < 3 then none else some (classifyFine weeks)

/-- The multiset of cluster member counts of a route's grouping. -/
def clusterSizes {K S : Type} [DecidableEq K] [DecidableEq S]
    (weeks : List (K × S)) : List Nat :=
  (clustersOf weeks).map (fun c => c.2.length)

/-- The largest cluster member count. -/
def specLargest {K S : Type} [DecidableEq K] [DecidableEq S]
    (weeks : List (K × S)) : Nat :=
  (clusterSizes weeks).foldr max 0

/-- The second-largest cluster member count (0 when there is only one
cluster): maximum after removing one copy of the largest count. -/
def specSecond {K S : Type} [DecidableEq K] [DecidableEq S]
    (weeks : List (K × S)) : Nat :=
  ((clusterSizes weeks).erase (specLargest weeks)).foldr max 0

/-- Modelled from the spec (§4.4 Stability Classifier, ordered policy 1–5):
the cluster statistics are taken set-wise (largest / second-largest member
count over the grouping, contiguity of every cluster) and the percentage
thresholds are read over `ℚ`. -/
def specFineRouteCategory {S : Type} [DecidableEq S]
    (weeks : List ((Nat × Nat) × S)) : Option FineCat :=
  if weeks.length < 3 then none
  else some (
    if (clustersOf weeks).length = 1 then FineCat.fully_stable
    else if (clustersOf weeks).length = 2 ∧
        ∀ c ∈ clustersOf weeks, is_contiguous c.2 = true then
      FineCat.timetable_changeover
    else if (specLargest weeks : ℚ) / (weeks.length : ℚ) * 100 ≥ 85 ∧
        (clustersOf weeks).length ≤ 5 then
      FineCat.holiday_exceptions
    else if (clustersOf weeks).length ≤ 5 ∧
        ((specLargest weeks : ℚ) + (specSecond weeks : ℚ)) / (weeks.length : ℚ) * 100 ≥ 75 then
      FineCat.multiple_stable_periods
    else FineCat.chaotic)

/-- Modelled from the spec (§4.4, coarse policy): bucket purely on the
dominant-cluster percentage over `ℚ`. -/
def specCoarseBucket (typical total : Nat) : CoarseCat :=
  let pct : ℚ := (typical : ℚ) / (total : ℚ) * 100
  if pct = 100 then CoarseCat.fully_stable
  else if pct ≥ 90 then CoarseCat.mostly_stable
  else if pct ≥ 70 then CoarseCat.some_variation
  else CoarseCat.high_variation

/-- The cluster partition of a route, taken set-wise: the collection of
cluster week-key sets produced by `clustersOf` on the route's
week-signature map. -/
def clusterPartition (excl : List Nat) (ts : List Trip) (rid : Nat) :
    Finset (Finset Nat) :=
  ((clustersOf (routeWeekSigs excl ts rid)).map (fun c => c.2.toFinset)).toFinset

/-- `most_common(1)[0][1]` of `Counter(l)`: the maximal multiplicity in `l`. -/
def maxCount {S : Type} [DecidableEq S] (l : List S) : Nat :=
  ((insertionDedup l).map (fun s => l.count s)).foldr max 0

/-- `most_common(1)[0][0]` of `Counter(l)`: the first value (in insertion
order) attaining the maximal multiplicity; `Counter.most_common` is a stable
descending sort by count, so ties go to the first-inserted value. -/
def mostCommonSig {S : Type} [DecidableEq S] (l : List S) : Option S :=
  (insertionDedup l).find? (fun s => decide (l.count s = maxCount l))

/-- The coarse bucket policy of `analyze_rail_excluding_holidays`: buckets by
the dominant signature's share of weeks.  Float conditions
`typical_pct == 100 / >= 90 / >= 70` with `typical_pct = (c/total)*100` are
modelled exactly as integer cross-multiplications. -/
def classifyCoarse {K S : Type} [DecidableEq S] (weeks : List (K × S)) : CoarseCat :=
  let total := weeks.length
  let typical := maxCount (weeks.map Prod.snd)
  if 100 * typical = 100 * total then CoarseCat.fully_stable
  else if 100 * typical ≥ 90 * total then CoarseCat.mostly_stable
  else if 100 * typical ≥ 70 * total then CoarseCat.some_variation
  else CoarseCat.high_variation

/-- The per-route coarse pipeline including the `len(weeks) < 4: continue`
filter. -/
def coarseRouteCategory {K S : Type} [DecidableEq S] (weeks : List (K × S)) :
    Option CoarseCat :=
  if weeks.length < 4 then none else some (classifyCoarse weeks)

/-- `exceptional_week_list`: the route's weeks whose signature differs from
the most common one (list order; the source sorts it, which no counted
property observes). -/
def exceptionalWeeks {K S : Type} [DecidableEq S] (weeks : List (K × S)) : List K :=
  (weeks.filter
    (fun p => decide (¬ some p.2 = mostCommonSig (weeks.map Prod.snd)))).map Prod.fst

/-- Does a route record land in the two categories whose exceptional weeks
`main` of `analyze_rail_excluding_bank_holidays` aggregates
(`for category in ['mostly_stable', 'some_variation']`)? -/
def inAggregatedCats {K S : Type} [DecidableEq S] (weeks : List (K × S)) : Bool :=
  decide (coarseRouteCategory weeks = some CoarseCat.mostly_stable ∨
    coarseRouteCategory weeks = some CoarseCat.some_variation)

/-- `all_exceptional_pass1[w]`: the multiplicity of `w` in the concatenated
exceptional week lists of the aggregated routes (the `Counter` built at
lines 314–318 of the source `main`). -/
def exceptionalCounter {K S : Type} [DecidableEq K] [DecidableEq S]
    (routes : List (List (K × S))) (w : K) : Nat :=
  ((routes.filter inAggregatedCats).flatMap exceptionalWeeks).count w

/-- Membership in `common_exceptional_weeks`: flagged with multiplicity ≥ 10. -/
def commonExceptional {K S : Type} [DecidableEq K] [DecidableEq S]
    (routes : List (List (K × S))) (w : K) : Prop :=
  10 ≤ exceptionalCounter routes w

instance {K S : Type} [DecidableEq K] [DecidableEq S]
    (routes : List (List (K × S))) (w : K) : Decidable (commonExceptional routes w) :=
  inferInstanceAs (Decidable (10 ≤ _))

/-- Modelled from the spec (§4.4 two-pass refinement) as claim C5 reads it:
the number of distinct non-fully-stable classified routes flagging `w` as
exceptional. -/
def specFlaggedCount {K S : Type} [DecidableEq K] [DecidableEq S]
    (routes : List (List (K × S))) (w : K) : Nat :=
  routes.countP (fun r => decide (¬ coarseRouteCategory r = none ∧
    ¬ coarseRouteCategory r = some CoarseCat.fully_stable ∧ w ∈ exceptionalWeeks r))

/-- The count of distinct aggregated-category routes flagging `w`, used by the
amended C5. -/
def flaggingRouteCount {K S : Type} [DecidableEq K] [DecidableEq S]
    (routes : List (List (K × S))) (w : K) : Nat :=
  routes.countP (fun r => inAggregatedCats r && decide (w ∈ exceptionalWeeks r))

/-- Percentage of `num` over `den` as printed by the summary lines; Python
raises `ZeroDivisionError` when `den = 0`, modelled as `none`. -/
def ratPct (num den : Nat) : Option ℚ :=
  if den = 0 then none else some ((num : ℚ) / (den : ℚ) * 100)

/-- Route identifiers in first-appearance order (`route_weekly_data` keys). -/
def routeIds (ts : List Trip) : List Nat := insertionDedup (ts.map Trip.route)

/-- The category list of all classified routes of the rigorous analysis, for
an ISO-key naming `wkey` of the Monday-aligned week blocks. -/
def classifiedCats (excl : List Nat) (ts : List Trip) (wkey : Nat → Nat × Nat) :
    List FineCat :=
  (routeIds ts).filterMap
    (fun rid => fineRouteCategory ((routeWeekSigs excl ts rid).map
      (fun p => (wkey p.1, p.2))))

/-- `total_routes = sum(len(results[k]) for k in results.keys())`. -/
def totalClassified (excl : List Nat) (ts : List Trip) (wkey : Nat → Nat × Nat) : Nat :=
  (classifiedCats excl ts wkey).length

/-- The printed share of one fine category
(`len(results[cat])/total_routes*100`, unguarded in the source). -/
def categoryPct (excl : List Nat) (ts : List Trip) (wkey : Nat → Nat × Nat)
    (c : FineCat) : Option ℚ :=
  ratPct ((classifiedCats excl ts wkey).count c) (totalClassified excl ts wkey)

/-- The printed publishable share `publishable/total_routes*100` of the
rigorous analysis (unguarded in the source). -/
def publishablePct (excl : List Nat) (ts : List Trip) (wkey : Nat → Nat × Nat) :
    Option ℚ :=
  ratPct ((classifiedCats excl ts wkey).count FineCat.fully_stable +
    (classifiedCats excl ts wkey).count FineCat.timetable_changeover +
    (classifiedCats excl ts wkey).count FineCat.holiday_exceptions)
    (totalClassified excl ts wkey)

/-- The aggregate publication recommendation ratio `publishable / total` of
`analyze_rail_excluding_bank_holidays.main` (lines 341–352, unguarded in the
source): `none` models the `ZeroDivisionError` raised when no route was
classified. -/
def recommendationFrac {K S : Type} [DecidableEq S]
    (routes : List (List (K × S))) : Option ℚ :=
  let cats := routes.filterMap coarseRouteCategory
  if cats.length = 0 then none
  else some (((cats.count CoarseCat.fully_stable +
    cats.count CoarseCat.mostly_stable : Nat) : ℚ) / (cats.length : ℚ))

/-- The 20-week route of the classification-boundary scenario: 18 weeks with
one signature and two singleton exception weeks (cluster sizes 18/1/1). -/
def route1811 : List ((Nat × Nat) × Nat) :=
  (List.range 18).map (fun i => ((2025, i + 1), 0)) ++ [((2025, 19), 1), ((2025, 20), 2)]

/-- A four-week route in which every week has a distinct signature: coarse
bucket `high_variation`, exceptional weeks 2, 3 and 5. -/
def routeHighVar : List (Nat × Nat) := [(1, 0), (2, 1), (3, 2), (5, 3)]

/-- Ten copies of `routeHighVar`: every one of them flags week 2 as
exceptional, and all of them are `high_variation`. -/
def routesHighVar : List (List (Nat × Nat)) := List.replicate 10 routeHighVar

/-- A single one-week trip: its route has 1 observed week, below every
classification minimum, so no route at all is classified. -/
def soloTrip : Trip := ⟨0, 1, [1, 1, 1, 1, 1, 0, 0], 1, 0, 0⟩

/-- An arbitrary ISO naming of the Monday-aligned week blocks. -/
def wk0 : Nat → Nat × Nat := fun n => (2025, n + 1)

/-- First counterexample trip for order dependence: pattern Monday-only. -/
def tripA : Trip := ⟨0, 1, [1, 0, 0, 0, 0, 0, 0], 1, 0, 0⟩

/-- Second counterexample trip: same route and week, pattern Tuesday-only. -/
def tripB : Trip := ⟨0, 2, [0, 1, 0, 0, 0, 0, 0], 1, 0, 0⟩

/-- A trip sharing route and week with `tripA` but with the same weekday
pattern (different service and departure count): folding order does not
matter for such a pair. -/
def tripC : Trip := ⟨0, 3, [1, 0, 0, 0, 0, 0, 0], 2, 0, 6⟩


/-! ### Basic lemmas about the embedded primitives -/

theorem mem_foldl_dedup {α : Type} [DecidableEq α] (l : List α) (acc : List α) (x : α) :
    x ∈ l.foldl (fun acc a => if a ∈ acc then acc else acc ++ [a]) acc ↔ x ∈ acc ∨ x ∈ l := by
  induction l generalizing acc with
  | nil => simp
  | cons a l ih =>
    by_cases h : a ∈ acc
    · simp only [List.foldl_cons, if_pos h, ih, List.mem_cons]
      constructor
      · rintro (hx | hx)
        · exact Or.inl hx
        · exact Or.inr (Or.inr hx)
      · rintro (hx | rfl | hx)
        · exact Or.inl hx
        · exact Or.inl h
        · exact Or.inr hx
    · simp only [List.foldl_cons, if_neg h, ih, List.mem_append, List.mem_cons,
        List.mem_singleton]
      tauto

theorem mem_insertionDedup {α : Type} [DecidableEq α] (l : List α) (x : α) :
    x ∈ insertionDedup l ↔ x ∈ l := by
  simp [insertionDedup, mem_foldl_dedup]

theorem nodup_foldl_dedup {α : Type} [DecidableEq α] (l : List α) (acc : List α)
    (hacc : acc.Nodup) :
    (l.foldl (fun acc a => if a ∈ acc then acc else acc ++ [a]) acc).Nodup := by
  induction l generalizing acc with
  | nil => exact hacc
  | cons a l ih =>
    by_cases h : a ∈ acc
    · simpa only [List.foldl_cons, if_pos h] using ih acc hacc
    · rw [List.foldl_cons, if_neg h]
      refine ih _ ?_
      simp [List.nodup_append, hacc, h]

theorem nodup_insertionDedup {α : Type} [DecidableEq α] (l : List α) :
    (insertionDedup l).Nodup :=
  nodup_foldl_dedup l [] List.nodup_nil

theorem toFinset_insertionDedup {α : Type} [DecidableEq α] (l : List α) :
    (insertionDedup l).toFinset = l.toFinset := by
  ext x
  simp [mem_insertionDedup]

theorem lt_stepDate (d : Nat) : d < stepDate d := by
  have h : d % 7 < 7 := Nat.mod_lt _ (by omega)
  simp only [stepDate]
  omega

theorem stepDate_sub (d : Nat) : 1 ≤ stepDate d - d ∧ stepDate d - d ≤ 7 := by
  have h : d % 7 < 7 := Nat.mod_lt _ (by omega)
  simp only [stepDate]
  omega

theorem stepDate_eq (d : Nat) : stepDate d = 7 * (d / 7 + 1) := by
  have h1 : 7 * (d / 7) + d % 7 = d := Nat.div_add_mod d 7
  have h2 : d % 7 < 7 := Nat.mod_lt _ (by omega)
  simp only [stepDate]
  omega

theorem stepDate_div (d : Nat) : stepDate d / 7 = d / 7 + 1 := by
  rw [stepDate_eq, Nat.mul_div_cancel_left _ (by omega : 0 < 7)]

theorem expandAux_stop (fuel cur fin : Nat) (h : ¬ cur ≤ fin) :
    expandAux fuel cur fin = [] := by
  cases fuel with
  | zero => rfl
  | succ fuel => simp [expandAux, if_neg h]

theorem expandAux_eq_range' (fuel : Nat) : ∀ cur, fin + 1 - cur ≤ fuel → cur ≤ fin →
    expandAux fuel cur fin = List.range' (cur / 7) (fin / 7 + 1 - cur / 7) := by
  induction fuel with
  | zero => intro cur hf hcf; omega
  | succ fuel ih =>
    intro cur hf hcf
    have hstep : cur < stepDate cur := lt_stepDate cur
    have hdiv : stepDate cur / 7 = cur / 7 + 1 := stepDate_div cur
    have hle : cur / 7 ≤ fin / 7 := Nat.div_le_div_right hcf
    rw [expandAux, if_pos hcf]
    by_cases hnext : stepDate cur ≤ fin
    · have hnle : stepDate cur / 7 ≤ fin / 7 := Nat.div_le_div_right hnext
      rw [ih (stepDate cur) (by omega) hnext, hdiv]
      have hcount : fin / 7 + 1 - cur / 7 = (fin / 7 + 1 - (cur / 7 + 1)) + 1 := by omega
      rw [hcount, List.range'_succ]
    · rw [expandAux_stop fuel _ fin hnext]
      have hlt : fin < 7 * (cur / 7 + 1) := by rw [← stepDate_eq]; omega
      have : fin / 7 < cur / 7 + 1 := by
        rw [Nat.div_lt_iff_lt_mul (by omega : 0 < 7)]
        omega
      have hfe : fin / 7 + 1 - cur / 7 = 1 := by omega
      rw [hfe, List.range'_succ]
      simp

theorem expandWeeks_eq_range' (s e : Nat) (h : s ≤ e) :
    expandWeeks s e = List.range' (s / 7) (e / 7 + 1 - s / 7) :=
  expandAux_eq_range' (e + 1 - s) s (le_refl _) h

theorem mem_expandWeeks (s e : Nat) (h : s ≤ e) (w : Nat) :
    w ∈ expandWeeks s e ↔ s / 7 ≤ w ∧ w ≤ e / 7 := by
  have hle : s / 7 ≤ e / 7 := Nat.div_le_div_right h
  rw [expandWeeks_eq_range', List.mem_range'_1]
  · omega
  · exact h

theorem expandWeeks_empty (s e : Nat) (h : e < s) : expandWeeks s e = [] := by
  have : e + 1 - s = 0 := by omega
  rw [expandWeeks, this]
  rfl

theorem expandExclAux_eq_filter (excl : List Nat) (fuel : Nat) : ∀ cur fin,
    expandExclAux excl fuel cur fin =
      (expandAux fuel cur fin).filter (fun w => decide (w ∉ excl)) := by
  induction fuel with
  | zero => intro cur fin; rfl
  | succ fuel ih =>
    intro cur fin
    by_cases hcf : cur ≤ fin
    · rw [expandExclAux, expandAux, if_pos hcf, if_pos hcf]
      by_cases hmem : cur / 7 ∈ excl
      · rw [if_pos hmem, List.filter_cons, ih]
        simp [hmem]
      · rw [if_neg hmem, List.filter_cons, ih]
        simp [hmem]
    · rw [expandExclAux, expandAux, if_neg hcf, if_neg hcf]
      rfl

theorem expandWeeksExcl_eq_filter (excl : List Nat) (s e : Nat) :
    expandWeeksExcl excl s e = (expandWeeks s e).filter (fun w => decide (w ∉ excl)) :=
  expandExclAux_eq_filter excl (e + 1 - s) s e

/-! ### C4 and C10: the week-expansion loop -/

/-- C4: for a trip with `start_date <= end_date`, the emission loop emits the
week key of the cursor and advances to the Monday of the following week until
the cursor passes `end_date`; the emitted keys are pairwise distinct and are
exactly the calendar weeks intersecting `[start_date, end_date]`, including
the final partial week. -/
theorem c4_week_expansion (s e : Nat) (h : s ≤ e) :
    (expandWeeks s e).Nodup ∧
    (∀ w, w ∈ expandWeeks s e ↔ ∃ d, s ≤ d ∧ d ≤ e ∧ d / 7 = w) ∧
    e / 7 ∈ expandWeeks s e := by
  have hmem := mem_expandWeeks s e h
  refine ⟨?_, ?_, ?_⟩
  · rw [expandWeeks_eq_range' s e h]
    exact List.nodup_range' _ _
  · intro w
    rw [hmem w]
    constructor
    · rintro ⟨h1, h2⟩
      by_cases hc : s ≤ 7 * w
      · exact ⟨7 * w, hc, by omega, by omega⟩
      · exact ⟨s, le_refl s, h, by omega⟩
    · rintro ⟨d, hd1, hd2, rfl⟩
      omega
  · rw [hmem]
    exact ⟨Nat.div_le_div_right h, le_refl _⟩

/-- Witness for C4 at the concrete interval `[3, 20]`. -/
theorem c4_week_expansion_witness :
    (3 : Nat) ≤ 20 ∧
    ((expandWeeks 3 20).Nodup ∧
     (∀ w, w ∈ expandWeeks 3 20 ↔ ∃ d, 3 ≤ d ∧ d ≤ 20 ∧ d / 7 = w) ∧
     20 / 7 ∈ expandWeeks 3 20) :=
  ⟨by decide, c4_week_expansion 3 20 (by decide)⟩

/-- C10: each loop iteration advances the cursor by `7 - weekday(cursor)`
days, a value between 1 and 7, so the cursor strictly increases and after
finitely many iterations exceeds any end date. -/
theorem c10_cursor_terminates :
    (∀ d : Nat, stepDate d - d = 7 - d % 7) ∧
    (∀ d : Nat, d < stepDate d ∧ 1 ≤ stepDate d - d ∧ stepDate d - d ≤ 7) ∧
    (∀ s e : Nat, ∃ n : Nat, e < stepDate^[n] s) := by
  refine ⟨?_, ?_, ?_⟩
  · intro d
    have h : d % 7 < 7 := Nat.mod_lt _ (by omega)
    simp only [stepDate]
    omega
  · intro d
    exact ⟨lt_stepDate d, (stepDate_sub d).1, (stepDate_sub d).2⟩
  · intro s e
    have key : ∀ (n s0 : Nat), s0 + n ≤ stepDate^[n] s0 := by
      intro n
      induction n with
      | zero => simp
      | succ n ih =>
        intro s0
        rw [Function.iterate_succ_apply]
        have h1 := ih (stepDate s0)
        have h2 := lt_stepDate s0
        omega
    refine ⟨e + 1, ?_⟩
    have := key (e + 1) s
    omega

/-! ### C2: the contiguity test -/

theorem insNat_length (a : Nat) (l : List Nat) : (insNat a l).length = l.length + 1 := by
  induction l with
  | nil => rfl
  | cons b l ih =>
    by_cases h : a ≤ b
    · simp [insNat, if_pos h]
    · simp [insNat, if_neg h, ih]

theorem sortNats_length (l : List Nat) : (sortNats l).length = l.length := by
  induction l with
  | nil => rfl
  | cons a l ih =>
    simp only [sortNats, List.foldr_cons, insNat_length, List.length_cons]
    exact congrArg (· + 1) ih

theorem adjGaps_eq_specGaps (l : List Nat) : adjGaps l = specGapsWith [49, 50] l := by
  induction l with
  | nil => rfl
  | cons a l ih =>
    cases l with
    | nil => rfl
    | cons b rest =>
      have hcond : (b - a ∈ ([49, 50] : List Nat)) ↔ (b - a = 49 ∨ b - a = 50) := by simp
      simp only [adjGaps, specGapsWith]
      rw [ih]
      congr 1
      rw [if_congr hcond rfl rfl]

theorem avg_le_three_halves (a b : Nat) (hb : 0 < b) :
    ((a : ℚ) / (b : ℚ) ≤ 3 / 2) ↔ 2 * a ≤ 3 * b := by
  rw [div_le_div_iff₀ (by exact_mod_cast hb) (by norm_num : (0 : ℚ) < 2)]
  constructor
  · intro h
    have h2 : ((2 * a : Nat) : ℚ) ≤ ((3 * b : Nat) : ℚ) := by push_cast; linarith
    exact_mod_cast h2
  · intro h
    have h2 : ((2 * a : Nat) : ℚ) ≤ ((3 * b : Nat) : ℚ) := by exact_mod_cast h
    push_cast at h2
    linarith

/-- C2 counterexample: the code's test leaves a difference of 51 unadjusted,
so the claimed test (wrap set `{49, 50, 51}`) disagrees with the code on the
two-week cluster `{2025-W50, 2026-W01}` (numeric difference
`202601 - 202550 = 51`). -/
theorem c2_counterexample :
    is_contiguous [(2025, 50), (2026, 1)] = false ∧
    specContiguousWith [49, 50, 51] [(2025, 50), (2026, 1)] = true := by
  constructor
  · decide
  · simp only [specContiguousWith, sortNats, weekNum, List.map, List.foldr, insNat,
      specGapsWith]
    norm_num

/-- C2 (amended): the contiguity test adjusts only the differences 49 and 50
to a gap of 1 (not 51), keeps every other difference as-is, and declares a
cluster contiguous exactly when the average adjusted gap is at most 1.5;
clusters of size ≤ 1 are always contiguous, and the two-week cluster
`{2025-W52, 2026-W01}` is contiguous. -/
theorem c2_contiguity_amended :
    (∀ ws : List (Nat × Nat), is_contiguous ws = specContiguousWith [49, 50] ws) ∧
    (∀ ws : List (Nat × Nat), ws.length ≤ 1 → is_contiguous ws = true) ∧
    is_contiguous [(2025, 52), (2026, 1)] = true := by
  refine ⟨?_, ?_, by decide⟩
  · intro ws
    by_cases hlen : ws.length ≤ 1
    · simp [is_contiguous, specContiguousWith, hlen]
    · have hnums : (sortNats (ws.map weekNum)).length = ws.length := by
        rw [sortNats_length, List.length_map]
      have hne : sortNats (ws.map weekNum) ≠ [] := by
        intro hnil
        rw [hnil] at hnums
        simp at hnums
        omega
      have hnemp : (sortNats (ws.map weekNum)).isEmpty = false := by
        simpa [List.isEmpty_iff] using hne
      simp only [is_contiguous, specContiguousWith, if_neg hlen, hnemp, Bool.false_eq_true,
        if_false, adjGaps_eq_specGaps]
      by_cases hg : (specGapsWith [49, 50] (sortNats (ws.map weekNum))).isEmpty = true
      · simp [hg]
      · have hgne : specGapsWith [49, 50] (sortNats (ws.map weekNum)) ≠ [] := by
          simpa [List.isEmpty_iff] using hg
        have hlenpos : 0 < (specGapsWith [49, 50] (sortNats (ws.map weekNum))).length :=
          List.length_pos.mpr hgne
        simp only [hg, if_false, Bool.false_eq_true]
        rw [decide_eq_decide]
        rw [avg_le_three_halves _ _ hlenpos]
  · intro ws h
    simp [is_contiguous, h]

/-! ### C3: sorting lemmas and the ordered fine policy -/

theorem insClus_perm {K S : Type} (a : S × List K) (l : List (S × List K)) :
    (insClus a l).Perm (a :: l) := by
  induction l with
  | nil => exact List.Perm.refl _
  | cons b l ih =>
    by_cases h : b.2.length ≤ a.2.length
    · rw [insClus, if_pos h]
    · rw [insClus, if_neg h]
      exact (ih.cons b).trans (List.Perm.swap a b l)

theorem sortClusters_perm {K S : Type} (cs : List (S × List K)) :
    (sortClusters cs).Perm cs := by
  induction cs with
  | nil => exact List.Perm.refl _
  | cons c cs ih =>
    simp only [sortClusters, List.foldr_cons]
    exact (insClus_perm c _).trans (ih.cons c)

theorem insClus_sorted {K S : Type} (a : S × List K) (l : List (S × List K))
    (h : l.Pairwise (fun x y => y.2.length ≤ x.2.length)) :
    (insClus a l).Pairwise (fun x y => y.2.length ≤ x.2.length) := by
  induction l with
  | nil => simp [insClus]
  | cons b l ih =>
    rw [List.pairwise_cons] at h
    obtain ⟨hb, htl⟩ := h
    by_cases hab : b.2.length ≤ a.2.length
    · rw [insClus, if_pos hab]
      refine List.Pairwise.cons ?_ (List.Pairwise.cons hb htl)
      intro x hx
      rcases List.mem_cons.mp hx with rfl | hx
      · exact hab
      · exact le_trans (hb x hx) hab
    · rw [insClus, if_neg hab]
      refine List.Pairwise.cons ?_ (ih htl)
      intro x hx
      have hx2 : x ∈ a :: l := (insClus_perm a l).mem_iff.mp hx
      rcases List.mem_cons.mp hx2 with rfl | hx2
      · omega
      · exact hb x hx2

theorem sortClusters_sorted {K S : Type} (cs : List (S × List K)) :
    (sortClusters cs).Pairwise (fun x y => y.2.length ≤ x.2.length) := by
  induction cs with
  | nil => simp [sortClusters]
  | cons c cs ih =>
    simp only [sortClusters, List.foldr_cons]
    exact insClus_sorted c _ ih

theorem foldr_max_perm {l l' : List Nat} (h : l.Perm l') :
    l.foldr max 0 = l'.foldr max 0 := by
  induction h with
  | nil => rfl
  | cons a _ ih => simp only [List.foldr_cons, ih]
  | swap a b l => simp only [List.foldr_cons]; exact max_left_comm _ _ _
  | trans _ _ ih1 ih2 => exact ih1.trans ih2

theorem foldr_max_le {l : List Nat} {a : Nat} (h : ∀ x ∈ l, x ≤ a) :
    l.foldr max 0 ≤ a := by
  induction l with
  | nil => exact Nat.zero_le a
  | cons b l ih =>
    simp only [List.foldr_cons]
    exact max_le (h b (List.mem_cons_self b l)) (ih fun x hx => h x (List.mem_cons_of_mem b hx))

theorem foldr_max_cons_eq {a : Nat} {l : List Nat} (h : ∀ x ∈ l, x ≤ a) :
    (a :: l).foldr max 0 = a := by
  simp only [List.foldr_cons]
  exact max_eq_left (foldr_max_le h)

theorem pct_ge_iff (a b t : Nat) (hb : 0 < b) :
    ((a : ℚ) / (b : ℚ) * 100 ≥ (t : ℚ)) ↔ 100 * a ≥ t * b := by
  rw [ge_iff_le, show (a : ℚ) / (b : ℚ) * 100 = ((100 * a : Nat) : ℚ) / (b : ℚ) by
    push_cast; ring, le_div_iff₀ (by exact_mod_cast hb)]
  constructor
  · intro h
    have h2 : ((t * b : Nat) : ℚ) ≤ ((100 * a : Nat) : ℚ) := by push_cast at h ⊢; linarith
    exact_mod_cast h2
  · intro h
    have h2 : ((t * b : Nat) : ℚ) ≤ ((100 * a : Nat) : ℚ) := by exact_mod_cast h
    push_cast at h2 ⊢
    linarith

theorem pct_eq_hundred_iff (a b : Nat) (hb : 0 < b) :
    ((a : ℚ) / (b : ℚ) * 100 = 100) ↔ 100 * a = 100 * b := by
  have hbq : (b : ℚ) ≠ 0 := by
    intro h
    exact absurd (by exact_mod_cast h : b = 0) (by omega)
  rw [show (a : ℚ) / (b : ℚ) * 100 = ((100 * a : Nat) : ℚ) / (b : ℚ) by push_cast; ring,
    div_eq_iff hbq]
  constructor
  · intro h
    have h2 : ((100 * a : Nat) : ℚ) = ((100 * b : Nat) : ℚ) := by push_cast at h ⊢; linarith
    exact_mod_cast h2
  · intro h
    have h2 : ((100 * a : Nat) : ℚ) = ((100 * b : Nat) : ℚ) := by exact_mod_cast h
    push_cast at h2 ⊢
    linarith

theorem clustersOf_ne_nil {K S : Type} [DecidableEq K] [DecidableEq S]
    {weeks : List (K × S)} (h : weeks ≠ []) : clustersOf weeks ≠ [] := by
  obtain ⟨p, ps, rfl⟩ := List.exists_cons_of_ne_nil h
  have hmem : p.2 ∈ insertionDedup ((p :: ps).map Prod.snd) :=
    (mem_insertionDedup _ _).mpr (by simp)
  have : (p.2, ((p :: ps).filter (fun q => decide (q.2 = p.2))).map Prod.fst) ∈
      clustersOf (p :: ps) := by
    simp only [clustersOf, List.mem_map]
    exact ⟨p.2, hmem, rfl⟩
  exact List.ne_nil_of_mem this

theorem fineRoute_eq_spec {S : Type} [DecidableEq S] (weeks : List ((Nat × Nat) × S)) :
    fineRouteCategory weeks = specFineRouteCategory weeks := by
  by_cases h3 : weeks.length < 3
  · simp [fineRouteCategory, specFineRouteCategory, h3]
  · have htot : 0 < weeks.length := by omega
    have hwne : weeks ≠ [] := by
      intro h
      rw [h] at h3
      simp at h3
    have hcne : clustersOf weeks ≠ [] := clustersOf_ne_nil hwne
    have hperm := sortClusters_perm (clustersOf weeks)
    have hsort := sortClusters_sorted (clustersOf weeks)
    have hlen : (sortClusters (clustersOf weeks)).length = (clustersOf weeks).length :=
      hperm.length_eq
    simp only [fineRouteCategory, specFineRouteCategory, if_neg h3]
    refine congrArg some ?_
    have hsne : sortClusters (clustersOf weeks) ≠ [] := by
      intro h
      rw [h] at hlen
      exact hcne (List.length_eq_zero.mp hlen.symm)
    obtain ⟨c0, rest0, hscs⟩ := List.exists_cons_of_ne_nil hsne
    cases rest0 with
    | nil =>
      have h1 : (clustersOf weeks).length = 1 := by
        rw [hscs] at hlen
        simpa using hlen.symm
      rw [if_pos h1]
      simp only [classifyFine, hscs, classifySorted]
    | cons c1 rest =>
      have hlen2 : (clustersOf weeks).length = rest.length + 2 := by
        rw [hscs] at hlen
        simp at hlen
        omega
      have hsorted := hsort
      rw [hscs, List.pairwise_cons] at hsorted
      obtain ⟨hc0, hsorted1⟩ := hsorted
      rw [List.pairwise_cons] at hsorted1
      obtain ⟨hc1, _⟩ := hsorted1
      have hmapperm : ((c0 :: c1 :: rest).map (fun c => c.2.length)).Perm
          ((clustersOf weeks).map (fun c => c.2.length)) := by
        rw [← hscs]
        exact hperm.map _
      have hboundtail : ∀ x ∈ c1.2.length :: rest.map (fun c => c.2.length),
          x ≤ c0.2.length := by
        intro x hx
        rcases List.mem_cons.mp hx with rfl | hx
        · exact hc0 c1 (List.mem_cons_self _ _)
        · obtain ⟨c, hcmem, rfl⟩ := List.mem_map.mp hx
          exact hc0 c (List.mem_cons_of_mem _ hcmem)
      have hL : specLargest weeks = ((clustersOf weeks).map (fun c => c.2.length)).foldr max 0 :=
        rfl
      have hlargest : specLargest weeks = c0.2.length := by
        rw [hL, ← foldr_max_perm hmapperm]
        simp only [List.map_cons]
        exact foldr_max_cons_eq hboundtail
      have hsecond : specSecond weeks = c1.2.length := by
        have hS : specSecond weeks =
            (((clustersOf weeks).map (fun c => c.2.length)).erase
              (specLargest weeks)).foldr max 0 := rfl
        rw [hS, hlargest]
        have herase : (((clustersOf weeks).map (fun c => c.2.length)).erase
            c0.2.length).Perm (c1.2.length :: rest.map (fun c => c.2.length)) := by
          have h2 := (hmapperm.symm).erase c0.2.length
          simp only [List.map_cons] at h2
          rw [List.erase_cons_head] at h2
          exact h2
        rw [foldr_max_perm herase]
        refine foldr_max_cons_eq ?_
        intro x hx
        obtain ⟨c, hcmem, rfl⟩ := List.mem_map.mp hx
        exact hc1 c hcmem
      have hiff1 : ¬ (clustersOf weeks).length = 1 := by omega
      have hiff2 : (rest.length = 0 ∧ is_contiguous c0.2 = true ∧ is_contiguous c1.2 = true) ↔
          ((clustersOf weeks).length = 2 ∧
            ∀ c ∈ clustersOf weeks, is_contiguous c.2 = true) := by
        constructor
        · rintro ⟨hr, h0, h1⟩
          refine ⟨by omega, ?_⟩
          intro c hcmem
          have hmem2 : c ∈ sortClusters (clustersOf weeks) := hperm.mem_iff.mpr hcmem
          rw [hscs, List.length_eq_zero.mp hr] at hmem2
          rcases List.mem_cons.mp hmem2 with rfl | hmem2
          · exact h0
          · rcases List.mem_cons.mp hmem2 with rfl | hmem2
            · exact h1
            · simp at hmem2
        · rintro ⟨h2, hall⟩
          refine ⟨by omega, ?_, ?_⟩
          · exact hall c0 (hperm.mem_iff.mp (by rw [hscs]; exact List.mem_cons_self _ _))
          · exact hall c1 (hperm.mem_iff.mp
              (by rw [hscs]; exact List.mem_cons_of_mem _ (List.mem_cons_self _ _)))
      have hiff3 : (100 * c0.2.length ≥ 85 * weeks.length ∧ rest.length + 2 ≤ 5) ↔
          ((specLargest weeks : ℚ) / (weeks.length : ℚ) * 100 ≥ 85 ∧
            (clustersOf weeks).length ≤ 5) := by
        rw [hlargest]
        constructor
        · rintro ⟨hp, hn⟩
          refine ⟨?_, by omega⟩
          rw [show (85 : ℚ) = ((85 : Nat) : ℚ) by norm_num, pct_ge_iff _ _ _ htot]
          exact hp
        · rintro ⟨hp, hn⟩
          rw [show (85 : ℚ) = ((85 : Nat) : ℚ) by norm_num, pct_ge_iff _ _ _ htot] at hp
          exact ⟨hp, by omega⟩
      have hiff4 : (rest.length + 2 ≤ 5 ∧
            100 * (c0.2.length + c1.2.length) ≥ 75 * weeks.length) ↔
          ((clustersOf weeks).length ≤ 5 ∧
            ((specLargest weeks : ℚ) + (specSecond weeks : ℚ)) /
              (weeks.length : ℚ) * 100 ≥ 75) := by
        rw [hlargest, hsecond]
        have hcast : ((c0.2.length : ℚ) + (c1.2.length : ℚ)) =
            (((c0.2.length + c1.2.length : Nat)) : ℚ) := by push_cast; ring
        rw [hcast]
        constructor
        · rintro ⟨hn, hp⟩
          refine ⟨by omega, ?_⟩
          rw [show (75 : ℚ) = ((75 : Nat) : ℚ) by norm_num, pct_ge_iff _ _ _ htot]
          exact hp
        · rintro ⟨hn, hp⟩
          rw [show (75 : ℚ) = ((75 : Nat) : ℚ) by norm_num, pct_ge_iff _ _ _ htot] at hp
          exact ⟨by omega, hp⟩
      rw [if_neg hiff1]
      simp only [classifyFine, hscs, classifySorted]
      exact if_congr hiff2 rfl (if_congr hiff3 rfl (if_congr hiff4 rfl rfl))

/-- C3: the fine classifier realizes the ordered first-match policy of the
spec: one cluster gives `fully_stable`; two clusters, both contiguous, give
`timetable_changeover`; largest cluster ≥ 85% of weeks with at most 5
clusters gives `holiday_exceptions`; at most 5 clusters whose two largest
cover ≥ 75% give `multiple_stable_periods`; otherwise `chaotic` — and routes
with fewer than 3 observed weeks are excluded from classification. -/
theorem c3_ordered_fine_policy {S : Type} [DecidableEq S]
    (weeks : List ((Nat × Nat) × S)) :
    fineRouteCategory weeks = specFineRouteCategory weeks :=
  fineRoute_eq_spec weeks

theorem classifyCoarse_eq_spec {K S : Type} [DecidableEq S] (weeks : List (K × S))
    (h4 : ¬ weeks.length < 4) :
    classifyCoarse weeks = specCoarseBucket (maxCount (weeks.map Prod.snd)) weeks.length := by
  have htot : 0 < weeks.length := by omega
  simp only [classifyCoarse, specCoarseBucket]
  have h1 : (100 * maxCount (weeks.map Prod.snd) = 100 * weeks.length) ↔
      ((maxCount (weeks.map Prod.snd) : ℚ) / (weeks.length : ℚ) * 100 = 100) :=
    (pct_eq_hundred_iff _ _ htot).symm
  have h2 : (100 * maxCount (weeks.map Prod.snd) ≥ 90 * weeks.length) ↔
      ((maxCount (weeks.map Prod.snd) : ℚ) / (weeks.length : ℚ) * 100 ≥ 90) := by
    rw [show (90 : ℚ) = ((90 : Nat) : ℚ) by norm_num, pct_ge_iff _ _ _ htot]
  have h3 : (100 * maxCount (weeks.map Prod.snd) ≥ 70 * weeks.length) ↔
      ((maxCount (weeks.map Prod.snd) : ℚ) / (weeks.length : ℚ) * 100 ≥ 70) := by
    rw [show (70 : ℚ) = ((70 : Nat) : ℚ) by norm_num, pct_ge_iff _ _ _ htot]
  exact if_congr h1 rfl (if_congr h2 rfl (if_congr h3 rfl rfl))

/-- C7: the coarse classifier buckets a route with at least 4 observed weeks
purely by its dominant-signature percentage (100% / ≥90% / ≥70% / else), and
the 18/1/1 route over 20 weeks is `holiday_exceptions` under the fine policy
and `mostly_stable` under the coarse policy. -/
theorem c7_coarse_policy :
    (∀ (K S : Type) [DecidableEq S] (weeks : List (K × S)), ¬ weeks.length < 4 →
      classifyCoarse weeks = specCoarseBucket (maxCount (weeks.map Prod.snd)) weeks.length) ∧
    fineRouteCategory route1811 = some FineCat.holiday_exceptions ∧
    coarseRouteCategory route1811 = some CoarseCat.mostly_stable := by
  refine ⟨?_, by decide, by decide⟩
  intro K S _ weeks h4
  exact classifyCoarse_eq_spec weeks h4

/-- Witness for C7 at the concrete 18/1/1 route (20 observed weeks). -/
theorem c7_coarse_policy_witness :
    classifyCoarse route1811 =
      specCoarseBucket (maxCount (route1811.map Prod.snd)) route1811.length :=
  c7_coarse_policy.1 (Nat × Nat) Nat route1811 (by decide)

/-- C6 evidence: with a feed in which no route reaches the classification
minimum, the classified total is 0 and every percentage / aggregate
recommendation expression of the source divides by zero (modelled as
`none`); the source computes them unguarded. -/
theorem c6_division_by_zero :
    totalClassified [] [soloTrip] wk0 = 0 ∧
    categoryPct [] [soloTrip] wk0 FineCat.fully_stable = none ∧
    publishablePct [] [soloTrip] wk0 = none ∧
    recommendationFrac ([[(1, 0)]] : List (List (Nat × Nat))) = none := by
  refine ⟨by decide, by decide, by decide, by decide⟩

/-! ### C8: clusters partition the observed weeks -/

theorem mem_clusterWeeks {K S : Type} [DecidableEq K] [DecidableEq S]
    (L : List K) (f : K → S) (s : S) (wk : K) :
    (wk ∈ (((L.map (fun w => (w, f w))).filter (fun p => decide (p.2 = s))).map Prod.fst)) ↔
      wk ∈ L ∧ f wk = s := by
  constructor
  · intro h
    obtain ⟨p, hp, rfl⟩ := List.mem_map.mp h
    obtain ⟨hpmem, hps⟩ := List.mem_filter.mp hp
    obtain ⟨w, hw, rfl⟩ := List.mem_map.mp hpmem
    exact ⟨hw, of_decide_eq_true hps⟩
  · rintro ⟨hw, hs⟩
    refine List.mem_map.mpr ⟨(wk, f wk), ?_, rfl⟩
    exact List.mem_filter.mpr ⟨List.mem_map_of_mem _ hw, by simpa using hs⟩

theorem length_filter_eq_one {α : Type} [DecidableEq α] {L : List α} {a : α}
    (hnd : L.Nodup) (ha : a ∈ L) :
    (L.filter (fun x => decide (x = a))).length = 1 := by
  induction L with
  | nil => simp at ha
  | cons b L ih =>
    rw [List.nodup_cons] at hnd
    obtain ⟨hb, hnd⟩ := hnd
    by_cases hba : b = a
    · subst hba
      rw [List.filter_cons, if_pos (by simp)]
      have hzero : L.filter (fun x => decide (x = b)) = [] := by
        rw [List.filter_eq_nil_iff]
        intro x hx
        simp only [decide_eq_true_eq]
        rintro rfl
        exact hb hx
      simp [hzero]
    · have ha2 : a ∈ L := by
        rcases List.mem_cons.mp ha with h | h
        · exact absurd h.symm hba
        · exact h
      rw [List.filter_cons, if_neg (by simpa using hba)]
      exact ih hnd ha2

theorem mem_foldr_union {β : Type} [DecidableEq β] (L : List (Finset β)) (x : β) :
    x ∈ L.foldr (· ∪ ·) ∅ ↔ ∃ s ∈ L, x ∈ s := by
  induction L with
  | nil => simp
  | cons t L ih => simp [Finset.mem_union, ih]

theorem clusters_partition_general {K S : Type} [DecidableEq K] [DecidableEq S]
    (L : List K) (f : K → S) :
    (∀ wk ∈ L, ((clustersOf (L.map (fun w => (w, f w)))).filter
        (fun c => decide (wk ∈ c.2))).length = 1) ∧
    (clustersOf (L.map (fun w => (w, f w)))).Pairwise
      (fun c d => ∀ wk, wk ∈ c.2 → wk ∉ d.2) ∧
    ((clustersOf (L.map (fun w => (w, f w)))).map (fun c => c.2.toFinset)).foldr (· ∪ ·) ∅ =
      L.toFinset := by
  have hsigs : (L.map (fun w => (w, f w))).map Prod.snd = L.map f := by
    rw [List.map_map]
    rfl
  have hnddd : (insertionDedup (L.map f)).Nodup := nodup_insertionDedup _
  refine ⟨?_, ?_, ?_⟩
  · intro wk hwk
    have hfwk : f wk ∈ insertionDedup (L.map f) :=
      (mem_insertionDedup _ _).mpr (List.mem_map_of_mem f hwk)
    simp only [clustersOf, hsigs]
    rw [List.filter_map, List.length_map]
    rw [List.filter_congr (fun s hs => ?_)]
    · exact length_filter_eq_one hnddd hfwk
    · show (decide (wk ∈ ((L.map (fun w => (w, f w))).filter
        (fun p => decide (p.2 = s))).map Prod.fst)) = decide (s = f wk)
      rw [decide_eq_decide]
      rw [mem_clusterWeeks]
      constructor
      · rintro ⟨_, rfl⟩
        rfl
      · rintro rfl
        exact ⟨hwk, rfl⟩
  · simp only [clustersOf, hsigs]
    rw [List.pairwise_map]
    refine List.Pairwise.imp ?_ hnddd
    intro s t hst wk hws hwt
    rw [mem_clusterWeeks] at hws hwt
    exact hst (hws.2.symm.trans hwt.2)
  · ext x
    simp only [clustersOf, hsigs]
    rw [mem_foldr_union]
    simp only [List.mem_map, List.mem_toFinset]
    constructor
    · rintro ⟨fs, ⟨c, ⟨s, hs, rfl⟩, rfl⟩, hx⟩
      rw [List.mem_toFinset, mem_clusterWeeks] at hx
      exact hx.1
    · intro hx
      refine ⟨(((L.map (fun w => (w, f w))).filter
          (fun p => decide (p.2 = f x))).map Prod.fst).toFinset,
        ⟨(f x, ((L.map (fun w => (w, f w))).filter
          (fun p => decide (p.2 = f x))).map Prod.fst),
          ⟨f x, (mem_insertionDedup _ _).mpr (List.mem_map_of_mem f hx), rfl⟩, rfl⟩, ?_⟩
      rw [List.mem_toFinset, mem_clusterWeeks]
      exact ⟨hx, rfl⟩

/-- C8: for every route, grouping the observed weeks by signature yields a
partition: every observed week lies in exactly one cluster, distinct
clusters are disjoint, and the union of the cluster week-sets is the full
observed week set. -/
theorem c8_cluster_partition (excl : List Nat) (ts : List Trip) (rid : Nat) :
    (∀ wk ∈ observedWeeks excl ts rid,
      ((clustersOf (routeWeekSigs excl ts rid)).filter
        (fun c => decide (wk ∈ c.2))).length = 1) ∧
    (clustersOf (routeWeekSigs excl ts rid)).Pairwise
      (fun c d => ∀ wk, wk ∈ c.2 → wk ∉ d.2) ∧
    ((clustersOf (routeWeekSigs excl ts rid)).map (fun c => c.2.toFinset)).foldr (· ∪ ·) ∅ =
      (observedWeeks excl ts rid).toFinset := by
  exact clusters_partition_general (observedWeeks excl ts rid) (sigAt excl ts rid)

/-- Witness for C8 on a concrete one-trip feed, at its observed week 0. -/
theorem c8_cluster_partition_witness :
    ((clustersOf (routeWeekSigs [] [soloTrip] 0)).filter
      (fun c => decide ((0 : Nat) ∈ c.2))).length = 1 :=
  (c8_cluster_partition [] [soloTrip] 0).1 0 (by decide)

/-! ### C1: order (in)dependence of the folding pass -/

theorem foldl_record (excl : List Nat) (rid wk : Nat) (ts : List Trip) (r : WeekRecord) :
    ts.foldl (fun r t => if touches excl rid wk t then updTrip t r else r) r =
      ⟨r.service_ids ∪
          ((ts.filter (fun t => decide (touches excl rid wk t))).map Trip.service).toFinset,
        ((ts.filter (fun t => decide (touches excl rid wk t))).map
          (fun t => some t.pattern)).getLastD r.weekday_pattern,
        r.total_departures +
          ((ts.filter (fun t => decide (touches excl rid wk t))).map Trip.dep).sum⟩ := by
  induction ts generalizing r with
  | nil => cases r; simp
  | cons t ts ih =>
    by_cases ht : touches excl rid wk t
    · rw [List.foldl_cons, if_pos ht, List.filter_cons, if_pos (by simpa using ht)]
      rw [ih]
      simp only [updTrip, List.map_cons, List.toFinset_cons, List.sum_cons, List.getLastD_cons]
      congr 1
      · rw [Finset.insert_union, Finset.union_insert]
      · omega
    · rw [List.foldl_cons, if_neg ht, List.filter_cons, if_neg (by simpa using ht)]
      exact ih r

theorem recordAt_char (excl : List Nat) (ts : List Trip) (rid wk : Nat) :
    recordAt excl ts rid wk =
      ⟨((ts.filter (fun t => decide (touches excl rid wk t))).map Trip.service).toFinset,
        ((ts.filter (fun t => decide (touches excl rid wk t))).map
          (fun t => some t.pattern)).getLastD none,
        ((ts.filter (fun t => decide (touches excl rid wk t))).map Trip.dep).sum⟩ := by
  rw [recordAt, foldl_record]
  simp [emptyRecord]

theorem getLastD_eq_of_const {α : Type} {c : α} (m : List α) (hne : m ≠ [])
    (hconst : ∀ x ∈ m, x = c) (d : α) : m.getLastD d = c := by
  induction m generalizing d with
  | nil => exact absurd rfl hne
  | cons b bs ih =>
    rw [List.getLastD_cons]
    cases bs with
    | nil => simpa using hconst b (by simp)
    | cons b2 bs2 =>
      exact ih (by simp) (fun x hx => hconst x (List.mem_cons_of_mem _ hx)) b

theorem getLastD_perm_const {α : Type} {l l' : List α} (h : l.Perm l')
    (hconst : ∀ x ∈ l, ∀ y ∈ l, x = y) (d : α) : l.getLastD d = l'.getLastD d := by
  cases l with
  | nil =>
    rw [List.Perm.eq_nil h.symm]
  | cons a as =>
    have hl'ne : l' ≠ [] := by
      intro he
      rw [he] at h
      exact (by simp : a :: as ≠ []) (List.Perm.eq_nil h)
    have h1 : (a :: as).getLastD d = a :=
      getLastD_eq_of_const _ (by simp) (fun x hx => hconst x hx a (by simp)) d
    have h2 : l'.getLastD d = a :=
      getLastD_eq_of_const l' hl'ne (fun x hx => hconst x (h.mem_iff.mpr hx) a (by simp)) d
    rw [h1, h2]

theorem recordAt_perm (excl : List Nat) {ts ts' : List Trip} (hperm : ts.Perm ts')
    (hpat : ∀ t1 ∈ ts, ∀ t2 ∈ ts, t1.route = t2.route →
      ∀ w ∈ expandWeeksExcl excl t1.startD t1.endD,
        w ∈ expandWeeksExcl excl t2.startD t2.endD → t1.pattern = t2.pattern)
    (rid wk : Nat) : recordAt excl ts rid wk = recordAt excl ts' rid wk := by
  have hf : (ts.filter (fun t => decide (touches excl rid wk t))).Perm
      (ts'.filter (fun t => decide (touches excl rid wk t))) := hperm.filter _
  rw [recordAt_char, recordAt_char]
  congr 1
  · exact List.toFinset_eq_iff_perm_dedup.mpr ((hf.map Trip.service).dedup)
  · refine getLastD_perm_const (hf.map (fun t => some t.pattern)) ?_ none
    intro x hx y hy
    obtain ⟨t1, ht1, rfl⟩ := List.mem_map.mp hx
    obtain ⟨t2, ht2, rfl⟩ := List.mem_map.mp hy
    obtain ⟨ht1mem, ht1t⟩ := List.mem_filter.mp ht1
    obtain ⟨ht2mem, ht2t⟩ := List.mem_filter.mp ht2
    have h1 : touches excl rid wk t1 := of_decide_eq_true ht1t
    have h2 : touches excl rid wk t2 := of_decide_eq_true ht2t
    have := hpat t1 ht1mem t2 ht2mem (h1.1.trans h2.1.symm) wk h1.2 h2.2
    rw [this]
  · exact (hf.map Trip.dep).sum_eq

theorem mem_observedWeeks (excl : List Nat) (ts : List Trip) (rid w : Nat) :
    w ∈ observedWeeks excl ts rid ↔
      ∃ t ∈ ts, t.route = rid ∧ w ∈ expandWeeksExcl excl t.startD t.endD := by
  rw [observedWeeks, mem_insertionDedup]
  simp only [List.mem_flatMap, List.mem_filter, decide_eq_true_eq]
  constructor
  · rintro ⟨t, ⟨ht, hr⟩, hw⟩
    exact ⟨t, ht, hr, hw⟩
  · rintro ⟨t, ht, hr, hw⟩
    exact ⟨t, ⟨ht, hr⟩, hw⟩

theorem observedWeeks_perm_toFinset (excl : List Nat) {ts ts' : List Trip}
    (hperm : ts.Perm ts') (rid : Nat) :
    (observedWeeks excl ts rid).toFinset = (observedWeeks excl ts' rid).toFinset := by
  ext w
  simp only [List.mem_toFinset, mem_observedWeeks]
  constructor
  · rintro ⟨t, ht, hr, hw⟩
    exact ⟨t, hperm.mem_iff.mp ht, hr, hw⟩
  · rintro ⟨t, ht, hr, hw⟩
    exact ⟨t, hperm.mem_iff.mpr ht, hr, hw⟩

theorem toFinset_list_map {α β : Type} [DecidableEq α] [DecidableEq β]
    (h : α → β) (l : List α) : (l.map h).toFinset = l.toFinset.image h := by
  induction l with
  | nil => simp
  | cons a l ih => simp [ih]

theorem clusterPartition_char (excl : List Nat) (ts : List Trip) (rid : Nat) :
    clusterPartition excl ts rid =
      ((observedWeeks excl ts rid).toFinset.image (sigAt excl ts rid)).image
        (fun s => (observedWeeks excl ts rid).toFinset.filter
          (fun w => sigAt excl ts rid w = s)) := by
  have hfun : ∀ s, ((((observedWeeks excl ts rid).map
      (fun w => (w, sigAt excl ts rid w))).filter
        (fun p => decide (p.2 = s))).map Prod.fst).toFinset =
      (observedWeeks excl ts rid).toFinset.filter (fun w => sigAt excl ts rid w = s) := by
    intro s
    ext w
    rw [List.mem_toFinset, mem_clusterWeeks, Finset.mem_filter, List.mem_toFinset]
  have hsnd : (((observedWeeks excl ts rid).map
      (fun w => (w, sigAt excl ts rid w))).map Prod.snd) =
      (observedWeeks excl ts rid).map (sigAt excl ts rid) := by
    rw [List.map_map]
    rfl
  rw [clusterPartition, routeWeekSigs, clustersOf, hsnd, List.map_map, toFinset_list_map,
    toFinset_insertionDedup, toFinset_list_map]
  refine congrArg (fun h => Finset.image h
    (Finset.image (sigAt excl ts rid) (observedWeeks excl ts rid).toFinset)) ?_
  funext s
  simpa using hfun s

/-- C1 counterexample: two trips of the same route and week carrying
different weekday patterns yield different `(route, week)` signatures when
folded in the two possible orders, refuting order-independence of the
per-week signature. -/
theorem c1_counterexample :
    List.Perm [tripA, tripB] [tripB, tripA] ∧
    ¬ sigAt [] [tripA, tripB] 0 0 = sigAt [] [tripB, tripA] 0 0 := by
  constructor
  · exact List.Perm.swap tripB tripA []
  · decide

/-- C1 (amended): the fold is order-independent in the service-identifier
set and total departures unconditionally, and the full per-week records,
signatures, observed week sets and cluster partitions are identical across
any reordering of the trip rows provided any two same-route trips touching
a common week carry the same weekday pattern (the reference behavior retains
only the last-folded weekday pattern). -/
theorem c1_order_independence_amended (excl : List Nat) (ts ts' : List Trip)
    (hperm : ts.Perm ts')
    (hpat : ∀ t1 ∈ ts, ∀ t2 ∈ ts, t1.route = t2.route →
      ∀ w ∈ expandWeeksExcl excl t1.startD t1.endD,
        w ∈ expandWeeksExcl excl t2.startD t2.endD → t1.pattern = t2.pattern) :
    (∀ rid wk, recordAt excl ts rid wk = recordAt excl ts' rid wk) ∧
    (∀ rid wk, sigAt excl ts rid wk = sigAt excl ts' rid wk) ∧
    (∀ rid, (observedWeeks excl ts rid).toFinset = (observedWeeks excl ts' rid).toFinset) ∧
    (∀ rid, clusterPartition excl ts rid = clusterPartition excl ts' rid) := by
  have hrec : ∀ rid wk, recordAt excl ts rid wk = recordAt excl ts' rid wk :=
    recordAt_perm excl hperm hpat
  have hsig : ∀ rid wk, sigAt excl ts rid wk = sigAt excl ts' rid wk := by
    intro rid wk
    rw [sigAt, sigAt, hrec]
  have hobs : ∀ rid, (observedWeeks excl ts rid).toFinset =
      (observedWeeks excl ts' rid).toFinset :=
    fun rid => observedWeeks_perm_toFinset excl hperm rid
  refine ⟨hrec, hsig, hobs, ?_⟩
  intro rid
  rw [clusterPartition_char, clusterPartition_char, hobs rid]
  have hsigf : sigAt excl ts rid = sigAt excl ts' rid := funext (hsig rid)
  rw [hsigf]

/-- Witness for C1 (amended) on a concrete same-pattern pair of trips. -/
theorem c1_order_independence_amended_witness :
    recordAt [] [tripA, tripC] 0 0 = recordAt [] [tripC, tripA] 0 0 :=
  (c1_order_independence_amended [] [tripA, tripC] [tripC, tripA]
    (List.Perm.swap tripC tripA []) (by decide)).1 0 0

/-! ### C9: excluding an untouched week changes nothing -/

theorem expandWeeksExcl_insert_of_not_mem {excl : List Nat} {w s e : Nat}
    (h : w ∉ expandWeeks s e) :
    expandWeeksExcl (w :: excl) s e = expandWeeksExcl excl s e := by
  rw [expandWeeksExcl_eq_filter, expandWeeksExcl_eq_filter]
  refine List.filter_congr ?_
  intro x hx
  have hxw : ¬ x = w := by
    rintro rfl
    exact h hx
  simp [List.mem_cons, hxw]

theorem flatMap_congr_mem {α β : Type} {l : List α} {f g : α → List β}
    (h : ∀ x ∈ l, f x = g x) : l.flatMap f = l.flatMap g := by
  induction l with
  | nil => rfl
  | cons a l ih =>
    simp only [List.flatMap_cons]
    rw [h a (List.mem_cons_self _ _), ih (fun x hx => h x (List.mem_cons_of_mem _ hx))]

theorem recordAt_insert_untouched (excl : List Nat) (ts : List Trip) (rid w : Nat)
    (h : ∀ t ∈ ts, t.route = rid → w ∉ expandWeeks t.startD t.endD) (wk : Nat) :
    recordAt (w :: excl) ts rid wk = recordAt excl ts rid wk := by
  rw [recordAt, recordAt]
  have key : ∀ (l : List Trip) (r : WeekRecord),
      (∀ t ∈ l, t.route = rid → w ∉ expandWeeks t.startD t.endD) →
      l.foldl (fun r t => if touches (w :: excl) rid wk t then updTrip t r else r) r =
      l.foldl (fun r t => if touches excl rid wk t then updTrip t r else r) r := by
    intro l
    induction l with
    | nil => intro r _; rfl
    | cons t l ih =>
      intro r hl
      have hcond : touches (w :: excl) rid wk t ↔ touches excl rid wk t := by
        by_cases hr : t.route = rid
        · rw [touches, touches,
            expandWeeksExcl_insert_of_not_mem (hl t (List.mem_cons_self _ _) hr)]
        · constructor <;> rintro ⟨h1, _⟩ <;> exact absurd h1 hr
      rw [List.foldl_cons, List.foldl_cons]
      have hl2 : ∀ t' ∈ l, t'.route = rid → w ∉ expandWeeks t'.startD t'.endD :=
        fun t' ht' => hl t' (List.mem_cons_of_mem _ ht')
      by_cases hc : touches excl rid wk t
      · rw [if_pos hc, if_pos (hcond.mpr hc)]
        exact ih _ hl2
      · rw [if_neg hc, if_neg (fun hx => hc (hcond.mp hx))]
        exact ih _ hl2
  exact key ts emptyRecord h

theorem observedWeeks_insert_untouched (excl : List Nat) (ts : List Trip) (rid w : Nat)
    (h : ∀ t ∈ ts, t.route = rid → w ∉ expandWeeks t.startD t.endD) :
    observedWeeks (w :: excl) ts rid = observedWeeks excl ts rid := by
  rw [observedWeeks, observedWeeks]
  refine congrArg insertionDedup ?_
  refine flatMap_congr_mem ?_
  intro t ht
  obtain ⟨htmem, htr⟩ := List.mem_filter.mp ht
  exact expandWeeksExcl_insert_of_not_mem (h t htmem (of_decide_eq_true htr))

theorem routeWeekSigs_insert_untouched (excl : List Nat) (ts : List Trip) (rid w : Nat)
    (h : ∀ t ∈ ts, t.route = rid → w ∉ expandWeeks t.startD t.endD) :
    routeWeekSigs (w :: excl) ts rid = routeWeekSigs excl ts rid := by
  rw [routeWeekSigs, routeWeekSigs, observedWeeks_insert_untouched excl ts rid w h]
  have hsig : (fun w' => (w', sigAt (w :: excl) ts rid w')) =
      (fun w' => (w', sigAt excl ts rid w')) := by
    funext w'
    rw [sigAt, sigAt, recordAt_insert_untouched excl ts rid w h]
  rw [hsig]

/-- C9: a week key present in the exclusion set contributes nothing while the
cursor still advances (exclusion is a filter on the emitted keys), and adding
to the exclusion set a week that none of the route's trips ever touch leaves
the route's week records, signatures, observed weeks, cluster partition and
assigned classification unchanged. -/
theorem c9_exclusion_untouched_noop (excl : List Nat) (ts : List Trip) (rid w : Nat)
    (h : ∀ t ∈ ts, t.route = rid → w ∉ expandWeeks t.startD t.endD) :
    (∀ (excl' : List Nat) (s e : Nat),
      expandWeeksExcl excl' s e = (expandWeeks s e).filter (fun x => decide (x ∉ excl'))) ∧
    (∀ wk, recordAt (w :: excl) ts rid wk = recordAt excl ts rid wk) ∧
    observedWeeks (w :: excl) ts rid = observedWeeks excl ts rid ∧
    routeWeekSigs (w :: excl) ts rid = routeWeekSigs excl ts rid ∧
    clusterPartition (w :: excl) ts rid = clusterPartition excl ts rid ∧
    (∀ wkey : Nat → Nat × Nat,
      fineRouteCategory ((routeWeekSigs (w :: excl) ts rid).map (fun p => (wkey p.1, p.2))) =
        fineRouteCategory ((routeWeekSigs excl ts rid).map (fun p => (wkey p.1, p.2)))) := by
  have hrws := routeWeekSigs_insert_untouched excl ts rid w h
  refine ⟨fun excl' s e => expandWeeksExcl_eq_filter excl' s e,
    recordAt_insert_untouched excl ts rid w h,
    observedWeeks_insert_untouched excl ts rid w h, hrws, ?_, ?_⟩
  · rw [clusterPartition, clusterPartition, hrws]
  · intro wkey
    rw [hrws]

/-- Witness for C9: excluding week 5, which the single one-week trip never
touches, leaves the route's observed weeks unchanged. -/
theorem c9_exclusion_untouched_noop_witness :
    observedWeeks (5 :: []) [soloTrip] 0 = observedWeeks [] [soloTrip] 0 :=
  (c9_exclusion_untouched_noop [] [soloTrip] 0 5 (by decide)).2.2.1

/-! ### C5: the two-pass exclusion-candidate aggregation -/

theorem exceptionalWeeks_nodup {K S : Type} [DecidableEq K] [DecidableEq S]
    (weeks : List (K × S)) (h : (weeks.map Prod.fst).Nodup) :
    (exceptionalWeeks weeks).Nodup := by
  rw [exceptionalWeeks]
  exact List.Nodup.sublist ((List.filter_sublist _).map Prod.fst) h

theorem exceptionalCounter_eq_countP {K S : Type} [DecidableEq K] [DecidableEq S]
    (routes : List (List (K × S))) (w : K)
    (h : ∀ r ∈ routes, (r.map Prod.fst).Nodup) :
    exceptionalCounter routes w = flaggingRouteCount routes w := by
  induction routes with
  | nil => rfl
  | cons r rs ih =>
    have hr2 : ∀ r' ∈ rs, (r'.map Prod.fst).Nodup :=
      fun r' h' => h r' (List.mem_cons_of_mem _ h')
    have ih2 := ih hr2
    simp only [exceptionalCounter, flaggingRouteCount] at ih2 ⊢
    rw [List.countP_cons, List.filter_cons]
    by_cases hagg : inAggregatedCats r = true
    · rw [if_pos hagg, List.flatMap_cons, List.count_append, ih2]
      by_cases hw : w ∈ exceptionalWeeks r
      · rw [List.count_eq_one_of_mem
          (exceptionalWeeks_nodup r (h r (List.mem_cons_self _ _))) hw]
        rw [if_pos (by rw [hagg]; simpa using hw)]
        omega
      · rw [List.count_eq_zero_of_not_mem hw]
        rw [if_neg (by simp [Bool.and_eq_true, hw])]
        omega
    · rw [if_neg hagg]
      rw [if_neg (by simp [Bool.and_eq_true, hagg])]
      omega

/-- C5 counterexample: ten `high_variation` routes all flag week 2 as
exceptional, so the claimed count over all non-fully-stable routes is 10,
yet the code's aggregation (which reads only the `mostly_stable` and
`some_variation` buckets) counts 0 and does not add week 2 to the exclusion
set. -/
theorem c5_counterexample :
    exceptionalCounter routesHighVar 2 = 0 ∧
    specFlaggedCount routesHighVar 2 = 10 ∧
    ¬ commonExceptional routesHighVar 2 := by
  exact ⟨by decide, by decide, by decide⟩

/-- C5 (amended): the two-pass aggregation counts, for each week, the number
of distinct routes among the `mostly_stable` and `some_variation` buckets
(not all non-fully-stable routes) whose exceptional-week list contains it,
and promotes exactly the weeks with count at least 10 to the systemic
exclusion set. -/
theorem c5_two_pass_amended {K S : Type} [DecidableEq K] [DecidableEq S]
    (routes : List (List (K × S))) (w : K)
    (h : ∀ r ∈ routes, (r.map Prod.fst).Nodup) :
    exceptionalCounter routes w = flaggingRouteCount routes w ∧
    (commonExceptional routes w ↔ 10 ≤ flaggingRouteCount routes w) := by
  have he := exceptionalCounter_eq_countP routes w h
  refine ⟨he, ?_⟩
  unfold commonExceptional
  rw [he]

/-- Witness for C5 (amended) on the concrete ten-route input. -/
theorem c5_two_pass_amended_witness :
    exceptionalCounter routesHighVar 2 = flaggingRouteCount routesHighVar 2 :=
  (c5_two_pass_amended routesHighVar 2 (by decide)).1

/-- Witness for C2 (amended) at a singleton cluster. -/
theorem c2_contiguity_amended_witness :
    is_contiguous [(2025, 1)] = true :=
  c2_contiguity_amended.2.1 [(2025, 1)] (by decide)
